import Mathlib

deriving instance DecidableEq for Except

/-!
Verification of the polyphonic PCM audio mixer in `bouldercaves/audio.py`
(`BCSample.chunked_data`, `SampleMixer`, and the `audioop.add` mixing helper)
against its natural-language specification.

Python dictionaries are embedded as association lists where lookup, update and
deletion act on the first occurrence of a key; `defaultdict(int)` lookups
default to 0.  Byte buffers are embedded as `List Nat` (one entry per byte);
signed little-endian PCM samples are decoded to `Int`.  Fallible operations
(Python exceptions such as `KeyError`, `ValueError`, `ZeroDivisionError`)
return `Except String`.
-/

namespace BoulderCaves

/-! ## Python dict embedding (association lists, first-occurrence semantics) -/

/-- Dictionary lookup with a default value (models `defaultdict` indexing). -/
def dlookup {α β : Type} [DecidableEq α] (d : β) : List (α × β) → α → β
  | [], _ => d
  | (k', v') :: rest, k => if k' = k then v' else dlookup d rest k

/-- Dictionary lookup returning `none` when the key is absent
(models plain `dict` indexing, which raises `KeyError` when absent). -/
def dlookupOpt {α β : Type} [DecidableEq α] : List (α × β) → α → Option β
  | [], _ => none
  | (k', v') :: rest, k => if k' = k then some v' else dlookupOpt rest k

/-- Dictionary assignment `m[k] = v`: replace the value at an existing key,
otherwise append the new binding at the end. -/
def dinsert {α β : Type} [DecidableEq α] : List (α × β) → α → β → List (α × β)
  | [], k, v => [(k, v)]
  | (k', v') :: rest, k, v =>
    if k' = k then (k, v) :: rest else (k', v') :: dinsert rest k v

/-- Dictionary deletion `del m[k]`: drop the binding at the key (if present). -/
def ddel {α β : Type} [DecidableEq α] : List (α × β) → α → List (α × β)
  | [], _ => []
  | (k', v') :: rest, k => if k' = k then rest else (k', v') :: ddel rest k

/-! ## BCSample.chunked_data -/

/-- `BCSample.chunked_data(chunksize, repeat=False)` with the default
(always-false) stop condition: repeatedly yield `sampledata[i : i+chunksize]`
and advance `i` by `chunksize` while `i < len(sampledata)`.
(The `0` chunk-size case, on which the Python loop would never terminate
for a non-empty buffer, returns `[]`; all claims assume a positive chunk size.) -/
def chunked_data_once : Nat → List Nat → List (List Nat)
  | _, [] => []
  | 0, _ :: _ => []
  | c + 1, b :: bs =>
    (b :: bs).take (c + 1) :: chunked_data_once (c + 1) ((b :: bs).drop (c + 1))
termination_by _ l => l.length
decreasing_by simp; omega

/-- The working buffer built by `chunked_data(chunksize, repeat=True)`:
`bdata = sampledata * ceil(chunksize / len(sampledata))` when the sample is
shorter than the chunk size, else `sampledata` itself. -/
def repeat_bdata (chunksize : Nat) (sampledata : List Nat) : List Nat :=
  if sampledata.length < chunksize then
    (List.replicate ((chunksize + sampledata.length - 1) / sampledata.length) sampledata).flatten
  else sampledata

/-- The cursor of the repeating generator: `i = 0` initially and
`i = (i + chunksize) % length` after each yielded chunk. -/
def repeat_cursor (chunksize length : Nat) : Nat → Nat
  | 0 => 0
  | k + 1 => (repeat_cursor chunksize length k + chunksize) % length

/-- The `k`-th chunk yielded by `chunked_data(chunksize, repeat=True)`:
slice `[i : i + chunksize]` of `bdata + bdata[:chunksize]` at cursor `i`. -/
def repeat_chunk (chunksize : Nat) (sampledata : List Nat) (k : Nat) : List Nat :=
  let bdata := repeat_bdata chunksize sampledata
  let ext := bdata ++ bdata.take chunksize
  (ext.drop (repeat_cursor chunksize bdata.length k)).take chunksize

/-- Byte `j` of the concatenated stream of chunks yielded by
`chunked_data(chunksize, repeat=True)` (every chunk has length `chunksize`,
so byte `j` lives in chunk `j / chunksize` at offset `j % chunksize`). -/
def repeat_stream_byte (chunksize : Nat) (sampledata : List Nat) (j : Nat) : Nat :=
  (repeat_chunk chunksize sampledata (j / chunksize)).getD (j % chunksize) 0

/-- Requesting the first chunk of `chunked_data(chunksize, repeat=True)`:
when the buffer is shorter than the chunk size the generator first computes
`math.ceil(chunksize / len(bdata))`, which raises `ZeroDivisionError` for an
empty buffer; otherwise the first chunk is yielded. -/
def repeat_first_chunk (chunksize : Nat) (sampledata : List Nat) :
    Except String (List Nat) :=
  if sampledata.length < chunksize then
    if sampledata.length = 0 then
      Except.error "ZeroDivisionError: division by zero"
    else Except.ok (repeat_chunk chunksize sampledata 0)
  else Except.ok (repeat_chunk chunksize sampledata 0)

/-! ## audioop.add — saturating addition of PCM byte buffers

The mixer relies on CPython's `audioop.add(buf1, buf2, width)`: both buffers
are read as arrays of signed little-endian integers of `width` bytes, added
element-wise with clamping to the signed range of that width, and re-encoded.
-/

/-- Little-endian encoding of a natural number into `w` bytes. -/
def natToLE : Nat → Nat → List Nat
  | 0, _ => []
  | w + 1, n => (n % 256) :: natToLE w (n / 256)

/-- Little-endian decoding of a byte list to a natural number. -/
def leToNat : List Nat → Nat
  | [] => 0
  | b :: bs => b % 256 + 256 * leToNat bs

/-- Interpret an unsigned `w`-byte value as a two's-complement signed integer. -/
def toSigned (w n : Nat) : Int :=
  if n < 2 ^ (8 * w - 1) then (n : Int) else (n : Int) - 2 ^ (8 * w)

/-- Saturating addition of two signed `w`-byte samples: add, then clamp to
`[-2^(8w-1), 2^(8w-1) - 1]` (CPython `audioop` `fbound`). -/
def satAdd (w : Nat) (x y : Int) : Int :=
  let maxval : Int := 2 ^ (8 * w - 1) - 1
  let minval : Int := -(2 ^ (8 * w - 1))
  let s := x + y
  if maxval < s then maxval else if s < minval then minval else s

/-- Encode a list of signed `w`-byte samples into a little-endian byte buffer. -/
def encodeSigned (w : Nat) (xs : List Int) : List Nat :=
  (xs.map fun x => natToLE w ((x % ((2 : Int) ^ (8 * w))).toNat)).flatten

/-- Decode a byte buffer into signed samples of width `w + 1` bytes
(positive width is split off so that the recursion is well-founded). -/
def decodeSignedPos (w : Nat) : List Nat → List Int
  | [] => []
  | b :: bs =>
    toSigned (w + 1) (leToNat (b :: bs.take w)) :: decodeSignedPos w (bs.drop w)
termination_by l => l.length
decreasing_by simp; omega

/-- Decode a byte buffer into signed little-endian samples of `w` bytes. -/
def decodeSigned (w : Nat) (bs : List Nat) : List Int :=
  match w with
  | 0 => []
  | w' + 1 => decodeSignedPos w' bs

/-- `audioop.add(a, b, w)`: checks lengths match, width is 1/2/3/4 and the
buffers hold a whole number of samples, then adds with saturation. -/
def audioop_add (w : Nat) (a b : List Nat) : Except String (List Nat) :=
  if a.length ≠ b.length then Except.error "Lengths should be the same"
  else if ¬(w = 1 ∨ w = 2 ∨ w = 3 ∨ w = 4) then
    Except.error "Size should be 1, 2, 3 or 4"
  else if a.length % w ≠ 0 then Except.error "not a whole number of frames"
  else
    Except.ok (encodeSigned w
      (List.zipWith (satAdd w) (decodeSigned w a) (decodeSigned w b)))

/-! ## Frame geometry

The module `synthesizer/params.py` is not part of the sources under
verification; per the specification the frame geometry is fixed 16-bit stereo
little-endian signed PCM. -/

/-- Modelled from the spec: `synth_params.norm_samplewidth`, the number of
bytes per channel per frame (the module `synthesizer/params.py` is missing
from the sources; the spec fixes 16-bit samples). -/
def norm_samplewidth : Nat := 2

/-- Modelled from the spec: `synth_params.norm_nchannels`, the number of
channels (the module `synthesizer/params.py` is missing from the sources;
the spec fixes stereo output). -/
def norm_nchannels : Nat := 2

/-- One mixing step of `SampleMixer.chunks`:
`mixed = audioop.add(mixed, to_mix, synth_params.norm_nchannels)`
(the code passes the channel count as the sample width; both are 2). -/
def mixer_add_step (a b : List Nat) : Except String (List Nat) :=
  audioop_add norm_nchannels a b

/-! ## SampleMixer state and operations

The mixer's mutable maps: `active_samples : sid -> (name, iterator)`,
`sample_counts : name -> int` (`defaultdict(int)`), `sample_limits :
name -> int` (`defaultdict(int)`), and the id counter `_sid`.  Voice
iterators are opaque to the mixer, so a voice is recorded by its name. -/

structure MixerState where
  active_samples : List (Nat × String)
  sample_counts : List (String × Int)
  sample_limits : List (String × Int)
  sid : Nat
deriving DecidableEq, Repr

/-- The freshly constructed mixer (`SampleMixer.__init__`). -/
def initState : MixerState := ⟨[], [], [], 0⟩

/-- `sum(self.sample_counts.values())`. -/
def sumCounts (m : List (String × Int)) : Int := (m.map Prod.snd).sum

/-- `SampleMixer.allow_sample`: reject a repeating sample whose name already
has an active voice; reject when the per-name count reaches
`sample_limits[name] or 4`; reject when the total count reaches 8. -/
def allow_sample (st : MixerState) (name : String) (rep : Bool) : Bool :=
  if rep ∧ 1 ≤ dlookup 0 st.sample_counts name then false
  else
    let max_samples :=
      if dlookup 0 st.sample_limits name = 0 then 4
      else dlookup 0 st.sample_limits name
    if max_samples ≤ dlookup 0 st.sample_counts name then false
    else if 8 ≤ sumCounts st.sample_counts then false
    else true

/-- The voice id used by `add_sample`: `self._sid += 1; sid = sid or self._sid`
(an explicit `sid` of `0` is falsy in Python and is replaced by the counter). -/
def resolve_sid (st : MixerState) (sidArg : Option Nat) : Nat :=
  match sidArg with
  | none => st.sid + 1
  | some s => if s = 0 then st.sid + 1 else s

/-- `SampleMixer.add_sample`: admission test, then insert the voice under the
resolved id and increment the per-name count; rejected calls return `None`
and leave the state unchanged. -/
def add_sample (st : MixerState) (name : String) (rep : Bool)
    (sidArg : Option Nat) : Option Nat × MixerState :=
  if allow_sample st name rep then
    let sid := resolve_sid st sidArg
    (some sid,
      { st with
        sid := st.sid + 1
        active_samples := dinsert st.active_samples sid name
        sample_counts :=
          dinsert st.sample_counts name (dlookup 0 st.sample_counts name + 1) })
  else (none, st)

/-- `SampleMixer.remove_sample`: `self.active_samples[sid]` raises `KeyError`
when the id is absent; otherwise the voice is deleted and its name count
decremented. -/
def remove_sample (st : MixerState) (sid : Nat) : Except String MixerState :=
  match dlookupOpt st.active_samples sid with
  | none => Except.error "KeyError"
  | some name =>
    Except.ok
      { st with
        active_samples := ddel st.active_samples sid
        sample_counts :=
          dinsert st.sample_counts name (dlookup 0 st.sample_counts name - 1) }

/-- `SampleMixer.clear_sources`: drop all voices and all counts
(limits and the id counter are retained). -/
def clear_sources (st : MixerState) : MixerState :=
  { st with active_samples := [], sample_counts := [] }

/-- `SampleMixer.clear_source` on a name: snapshot the voice list and call
`remove_sample` for every voice carrying the name. -/
def clear_source_name (st : MixerState) (name : String) :
    Except String MixerState :=
  (st.active_samples.filter fun p => p.2 = name).foldlM
    (fun s p => remove_sample s p.1) st

/-- `SampleMixer.set_limit`. -/
def set_limit (st : MixerState) (name : String) (n : Int) : MixerState :=
  { st with sample_limits := dinsert st.sample_limits name n }

/-! ## SampleMixer.chunks — one round of chunk production

Each round snapshots the voices, pulls one chunk from every voice (`none`
models `StopIteration`), pads short chunks with zero bytes, raises
`ValueError` on oversized chunks, mixes with `audioop.add`, and removes the
exhausted voices. -/

/-- Collect the per-voice chunks of one round of `SampleMixer.chunks`:
exhausted voices contribute nothing, a chunk longer than the chunk size
raises `ValueError`, and shorter chunks are right-padded with zero bytes. -/
def gatherChunks (chunksize : Nat) :
    List (Option (List Nat)) → Except String (List (List Nat))
  | [] => Except.ok []
  | none :: rest => gatherChunks chunksize rest
  | some chunk :: rest =>
    if chunksize < chunk.length then
      Except.error "chunk from sample is larger than chunksize from mixer"
    else
      let chunk :=
        if chunk.length < chunksize then
          chunk ++ List.replicate (chunksize - chunk.length) 0
        else chunk
      (gatherChunks chunksize rest).map fun cs => chunk :: cs

/-- One value yielded by `SampleMixer.chunks`, given the chunk pulled from
each active voice: gather and pad, fall back to a silent chunk when no voice
produced data, then fold the chunks together with `audioop.add` using width
`w`. -/
def next_chunk (w chunksize : Nat) (pulls : List (Option (List Nat))) :
    Except String (List Nat) :=
  match gatherChunks chunksize pulls with
  | Except.error e => Except.error e
  | Except.ok cs =>
    let chunks_to_mix :=
      if cs.isEmpty then [List.replicate chunksize 0] else cs
    match chunks_to_mix with
    | [] => Except.error "unreachable"
    | first :: rest => rest.foldlM (fun acc c => audioop_add w acc c) first

/-- The state change of one round of `SampleMixer.chunks`: every voice whose
iterator is exhausted (per the predicate) is removed via `remove_sample`. -/
def chunk_step_state (st : MixerState) (exhausted : Nat → Bool) :
    Except String MixerState :=
  (st.active_samples.filter fun p => exhausted p.1).foldlM
    (fun s p => remove_sample s p.1) st

/-- The invariant of claim C9: the per-name counts sum to the number of
active voices. -/
def mixer_invariant (st : MixerState) : Prop :=
  sumCounts st.sample_counts = (st.active_samples.length : Int)

instance (st : MixerState) : Decidable (mixer_invariant st) := by
  unfold mixer_invariant; infer_instance

/-! ## Dictionary lemmas -/

theorem dlookup_dinsert_self {α β : Type} [DecidableEq α]
    (m : List (α × β)) (k : α) (v : β) (d : β) :
    dlookup d (dinsert m k v) k = v := by
  induction m with
  | nil => simp [dinsert, dlookup]
  | cons p rest ih =>
    by_cases h : p.1 = k
    · simp [dinsert, dlookup, h]
    · simpa [dinsert, dlookup, h] using ih

theorem sumCounts_dinsert (m : List (String × Int)) (k : String) (x : Int) :
    sumCounts (dinsert m k x) = sumCounts m - dlookup 0 m k + x := by
  induction m with
  | nil => simp [dinsert, dlookup, sumCounts]
  | cons p rest ih =>
    by_cases h : p.1 = k
    · subst h
      simp [dinsert, dlookup, sumCounts]
      ring
    · simp [dinsert, dlookup, sumCounts, h] at ih ⊢
      omega

theorem length_dinsert_of_mem {α β : Type} [DecidableEq α]
    (m : List (α × β)) (k : α) (v : β) (h : dlookupOpt m k ≠ none) :
    (dinsert m k v).length = m.length := by
  induction m with
  | nil => simp [dlookupOpt] at h
  | cons p rest ih =>
    by_cases hk : p.1 = k
    · simp [dinsert, hk]
    · simp [dlookupOpt, hk] at h
      simpa [dinsert, hk] using ih h

theorem length_dinsert_of_not_mem {α β : Type} [DecidableEq α]
    (m : List (α × β)) (k : α) (v : β) (h : dlookupOpt m k = none) :
    (dinsert m k v).length = m.length + 1 := by
  induction m with
  | nil => simp [dinsert]
  | cons p rest ih =>
    by_cases hk : p.1 = k
    · simp [dlookupOpt, hk] at h
    · simp [dlookupOpt, hk] at h
      simpa [dinsert, hk] using ih h

theorem length_ddel_of_mem {α β : Type} [DecidableEq α]
    (m : List (α × β)) (k : α) (h : dlookupOpt m k ≠ none) :
    (ddel m k).length + 1 = m.length := by
  induction m with
  | nil => simp [dlookupOpt] at h
  | cons p rest ih =>
    by_cases hk : p.1 = k
    · simp [ddel, hk]
    · simp [dlookupOpt, hk] at h
      simpa [ddel, hk] using ih h

theorem dlookupOpt_eq_none_of_not_mem {α β : Type} [DecidableEq α]
    (m : List (α × β)) (k : α) (h : k ∉ m.map Prod.fst) :
    dlookupOpt m k = none := by
  induction m with
  | nil => simp [dlookupOpt]
  | cons p rest ih =>
    rw [List.map_cons, List.mem_cons] at h
    push_neg at h
    have hk : p.1 ≠ k := fun hc => h.1 hc.symm
    simpa [dlookupOpt, hk] using ih h.2

theorem dlookupOpt_ddel_self {α β : Type} [DecidableEq α]
    (m : List (α × β)) (k : α) (h : (m.map Prod.fst).Nodup) :
    dlookupOpt (ddel m k) k = none := by
  induction m with
  | nil => simp [ddel, dlookupOpt]
  | cons p rest ih =>
    rw [List.map_cons, List.nodup_cons] at h
    by_cases hk : p.1 = k
    · subst hk
      simpa [ddel] using dlookupOpt_eq_none_of_not_mem rest p.1 h.1
    · simpa [ddel, dlookupOpt, hk] using ih h.2

/-! ## Admission control: claims C6, C7, C8 -/

theorem allow_sample_false_of_cap (st : MixerState) (name : String)
    (rep : Bool) (h : 8 ≤ sumCounts st.sample_counts) :
    allow_sample st name rep = false := by
  unfold allow_sample
  split
  · rfl
  · simp [h]

/-- C6: whenever the per-name counts sum to at least 8 (the global polyphony
cap), `add_sample` returns `None` for any sample name, repeat flag and
explicit id, and the whole mixer state (voice map, counts, id counter) is
left unchanged. -/
theorem add_sample_rejected_at_global_cap (st : MixerState) (name : String)
    (rep : Bool) (sidArg : Option Nat) (h : 8 ≤ sumCounts st.sample_counts) :
    add_sample st name rep sidArg = (none, st) := by
  simp [add_sample, allow_sample_false_of_cap st name rep h]

/-- Witness for C6 at a state holding eight voices of name "a". -/
theorem add_sample_rejected_at_global_cap_witness :
    add_sample ⟨[], [("a", 8)], [], 0⟩ "b" true none =
      (none, (⟨[], [("a", 8)], [], 0⟩ : MixerState)) :=
  add_sample_rejected_at_global_cap ⟨[], [("a", 8)], [], 0⟩ "b" true none
    (by decide)

/-- C7: `add_sample` with `repeat=True` returns `None` whenever the per-name
count of the sample's name is at least 1, while a non-repeating `add_sample`
of the same name still succeeds (returning the resolved id) as long as the
per-name count is below the effective per-name limit and the global cap of 8
is not reached. -/
theorem add_sample_repeat_exclusive (st : MixerState) (name : String) :
    (∀ sidArg, 1 ≤ dlookup 0 st.sample_counts name →
      add_sample st name true sidArg = (none, st)) ∧
    (∀ sidArg,
      dlookup 0 st.sample_counts name <
        (if dlookup 0 st.sample_limits name = 0 then 4
         else dlookup 0 st.sample_limits name) →
      sumCounts st.sample_counts < 8 →
      (add_sample st name false sidArg).1 = some (resolve_sid st sidArg)) := by
  constructor
  · intro sidArg h
    have hallow : allow_sample st name true = false := by
      unfold allow_sample
      rw [if_pos ⟨rfl, h⟩]
    simp [add_sample, hallow]
  · intro sidArg hlim hsum
    have hallow : allow_sample st name false = true := by
      unfold allow_sample
      rw [if_neg (by simp), if_neg (not_le.mpr hlim), if_neg (not_le.mpr hsum)]
    simp [add_sample, hallow]

/-- Witness for C7, following the spec's scenario: with one "amoeba" voice
active, a repeating admission is rejected and a non-repeating one yields
id 2. -/
theorem add_sample_repeat_exclusive_witness :
    add_sample ⟨[(1, "amoeba")], [("amoeba", 1)], [], 1⟩ "amoeba" true none =
      (none, (⟨[(1, "amoeba")], [("amoeba", 1)], [], 1⟩ : MixerState)) ∧
    (add_sample ⟨[(1, "amoeba")], [("amoeba", 1)], [], 1⟩ "amoeba" false
        none).1 = some 2 :=
  ⟨(add_sample_repeat_exclusive ⟨[(1, "amoeba")], [("amoeba", 1)], [], 1⟩
      "amoeba").1 none (by decide),
   (add_sample_repeat_exclusive ⟨[(1, "amoeba")], [("amoeba", 1)], [], 1⟩
      "amoeba").2 none (by decide) (by decide)⟩

theorem add_sample_none_iff (st : MixerState) (name : String)
    (sidArg : Option Nat) :
    (add_sample st name false sidArg).1 = none ↔
      allow_sample st name false = false := by
  by_cases h : allow_sample st name false <;> simp [add_sample, h]

theorem allow_sample_false_iff (st : MixerState) (name : String) :
    allow_sample st name false = false ↔
      ((if dlookup 0 st.sample_limits name = 0 then 4
        else dlookup 0 st.sample_limits name) ≤
          dlookup 0 st.sample_counts name ∨
        8 ≤ sumCounts st.sample_counts) := by
  unfold allow_sample
  rw [if_neg (by simp)]
  by_cases hlim :
      (if dlookup 0 st.sample_limits name = 0 then (4 : Int)
       else dlookup 0 st.sample_limits name) ≤ dlookup 0 st.sample_counts name
  · simp [hlim]
  · by_cases hsum : 8 ≤ sumCounts st.sample_counts
    · simp [hlim, hsum]
    · simp [hlim, hsum]

/-- C8 counterexample: the claim says `set_limit(name, 0)` makes the
effective cap 0 (so the next admission of that name is rejected), but the
code evaluates `sample_limits[name] or 4`, so a stored limit of 0 behaves
as the default 4 and the admission succeeds. -/
theorem set_limit_zero_counterexample :
    ¬ (add_sample (set_limit initState "x" 0) "x" false none).1 = none := by
  decide

/-- C8 amended: after `set_limit(name, n)` with `n ≥ 1` the effective
per-name cap is exactly `n`; a stored limit of 0 — like a limit that was
never set — makes the effective cap 4 (`sample_limits[name] or 4`). -/
theorem set_limit_effective_cap (st : MixerState) (name : String) (n : Int)
    (sidArg : Option Nat) :
    (1 ≤ n →
      ((add_sample (set_limit st name n) name false sidArg).1 = none ↔
        (n ≤ dlookup 0 st.sample_counts name ∨
          8 ≤ sumCounts st.sample_counts))) ∧
    ((add_sample (set_limit st name 0) name false sidArg).1 = none ↔
      (4 ≤ dlookup 0 st.sample_counts name ∨
        8 ≤ sumCounts st.sample_counts)) ∧
    (dlookup 0 st.sample_limits name = 0 →
      ((add_sample st name false sidArg).1 = none ↔
        (4 ≤ dlookup 0 st.sample_counts name ∨
          8 ≤ sumCounts st.sample_counts))) := by
  refine ⟨fun hn => ?_, ?_, fun h0 => ?_⟩
  · rw [add_sample_none_iff, allow_sample_false_iff]
    simp [set_limit, dlookup_dinsert_self]
    rw [if_neg (by omega : ¬ n = 0)]
  · rw [add_sample_none_iff, allow_sample_false_iff]
    simp [set_limit, dlookup_dinsert_self]
  · rw [add_sample_none_iff, allow_sample_false_iff]
    simp [h0]

/-- Witness for C8 (amended) with limit 2 on "x" and one active "x" voice:
a second admission is allowed, i.e. not `none`. -/
theorem set_limit_effective_cap_witness :
    ¬ ((add_sample (set_limit ⟨[(1, "x")], [("x", 1)], [], 1⟩ "x" 2) "x"
        false none).1 = none) := by
  have h := ((set_limit_effective_cap ⟨[(1, "x")], [("x", 1)], [], 1⟩ "x" 2
      none).1 (by decide))
  intro hc
  rcases h.mp hc with h' | h' <;> revert h' <;> decide

/-! ## Voice removal: claim C2 -/

/-- C2 counterexample: the claim says `remove_sample` on an absent id is a
no-op that does not raise, but `self.active_samples[sid]` raises `KeyError`
on the freshly constructed mixer. -/
theorem remove_sample_absent_raises :
    remove_sample initState 1 = Except.error "KeyError" := by decide

/-- C2 amended: `remove_sample` raises `KeyError` when the id is absent;
when the id is active the voice is removed and its name count decremented,
so a second `stop(id)` raises instead of being a no-op. -/
theorem remove_sample_not_idempotent (st : MixerState) (sid : Nat) :
    (dlookupOpt st.active_samples sid = none →
      remove_sample st sid = Except.error "KeyError") ∧
    (∀ st', (st.active_samples.map Prod.fst).Nodup →
      remove_sample st sid = Except.ok st' →
      remove_sample st' sid = Except.error "KeyError") := by
  constructor
  · intro h
    simp [remove_sample, h]
  · intro st' hnodup hok
    unfold remove_sample at hok
    cases hfind : dlookupOpt st.active_samples sid with
    | none => rw [hfind] at hok; exact absurd hok (by simp)
    | some name =>
      rw [hfind] at hok
      have hst' : st'.active_samples = ddel st.active_samples sid := by
        cases hok; rfl
      simp [remove_sample, hst', dlookupOpt_ddel_self _ _ hnodup]

/-- Witness for C2 (amended): removing id 1 from the empty mixer raises, and
after a successful removal a second removal of the same id raises. -/
theorem remove_sample_not_idempotent_witness :
    remove_sample initState 1 = Except.error "KeyError" ∧
    remove_sample ⟨[], [("a", 0)], [], 1⟩ 1 = Except.error "KeyError" :=
  ⟨(remove_sample_not_idempotent initState 1).1 (by decide),
   (remove_sample_not_idempotent ⟨[(1, "a")], [("a", 1)], [], 1⟩ 1).2
     ⟨[], [("a", 0)], [], 1⟩ (by decide) (by decide)⟩

/-! ## Claim C10 -/

/-- C10: requesting the first chunk of `chunked_data(C, repeat=True)` on a
sample with an empty PCM buffer raises `ZeroDivisionError` while computing
the tiling factor `math.ceil(C / len(bdata))`, instead of yielding a chunk
or ending the sequence. -/
theorem repeat_empty_buffer_zero_division (chunksize : Nat)
    (h : 0 < chunksize) :
    repeat_first_chunk chunksize [] =
      Except.error "ZeroDivisionError: division by zero" := by
  simp [repeat_first_chunk, h]

/-- Witness for C10 at chunk size 4. -/
theorem repeat_empty_buffer_zero_division_witness :
    repeat_first_chunk 4 [] =
      Except.error "ZeroDivisionError: division by zero" :=
  repeat_empty_buffer_zero_division 4 (by decide)

/-! ## Claim C9 — the counts/voices invariant -/

theorem foldlM_except_preserves {σ ι : Type} (P : σ → Prop)
    (f : σ → ι → Except String σ)
    (hf : ∀ s a s', P s → f s a = Except.ok s' → P s') :
    ∀ (l : List ι) (s s' : σ), P s → l.foldlM f s = Except.ok s' → P s' := by
  intro l
  induction l with
  | nil =>
    intro s s' hs h
    simp [List.foldlM] at h
    have hss : s = s' := by simpa [pure, Except.pure] using h
    exact hss ▸ hs
  | cons a l ih =>
    intro s s' hs h
    rw [List.foldlM_cons] at h
    cases hfa : f s a with
    | error e =>
      rw [hfa] at h
      exact absurd h (by simp [Bind.bind, Except.bind])
    | ok s1 =>
      rw [hfa] at h
      exact ih s1 s' (hf s a s1 hs hfa)
        (by simpa [Bind.bind, Except.bind] using h)

theorem mixer_invariant_remove (st st' : MixerState) (sid : Nat)
    (hinv : mixer_invariant st)
    (h : remove_sample st sid = Except.ok st') : mixer_invariant st' := by
  unfold remove_sample at h
  cases hfind : dlookupOpt st.active_samples sid with
  | none => rw [hfind] at h; exact absurd h (by simp)
  | some name =>
    rw [hfind] at h
    cases h
    unfold mixer_invariant at hinv ⊢
    have hlen := length_ddel_of_mem st.active_samples sid (by rw [hfind]; simp)
    simp only [sumCounts_dinsert]
    omega

theorem mixer_invariant_add (st : MixerState) (name : String) (rep : Bool)
    (sidArg : Option Nat) (hinv : mixer_invariant st)
    (hfresh : dlookupOpt st.active_samples (resolve_sid st sidArg) = none) :
    mixer_invariant (add_sample st name rep sidArg).2 := by
  by_cases hallow : allow_sample st name rep
  · unfold mixer_invariant at hinv ⊢
    simp only [add_sample, hallow, if_true]
    rw [sumCounts_dinsert, length_dinsert_of_not_mem _ _ _ hfresh]
    omega
  · simpa [add_sample, hallow] using hinv

/-- C9 counterexample: the invariant `sum(per-name counts) = |active voices|`
is not preserved by `add_sample` with an explicit `sid` that is already an
active voice id: the dictionary assignment overwrites the existing voice
while the per-name count is still incremented. -/
theorem mixer_invariant_explicit_sid_counterexample :
    mixer_invariant (⟨[(5, "a")], [("a", 1)], [], 1⟩ : MixerState) ∧
    ¬ mixer_invariant
      (add_sample ⟨[(5, "a")], [("a", 1)], [], 1⟩ "b" false (some 5)).2 := by
  decide

/-- C9 amended: in any state satisfying `sum(per-name counts) = |active
voices|`, the invariant is preserved by `add_sample` provided the resolved
voice id is not already active (which holds in particular for every call
without an explicit `sid` on states whose ids were allocated by the
counter), by `remove_sample` of an active id, by `clear_source`, by
`clear_sources` and by the voice removals of one round of chunk
production. -/
theorem mixer_invariant_preserved (st : MixerState)
    (hinv : mixer_invariant st) :
    (∀ name rep sidArg,
      dlookupOpt st.active_samples (resolve_sid st sidArg) = none →
      mixer_invariant (add_sample st name rep sidArg).2) ∧
    (∀ sid st', remove_sample st sid = Except.ok st' →
      mixer_invariant st') ∧
    (∀ name st', clear_source_name st name = Except.ok st' →
      mixer_invariant st') ∧
    mixer_invariant (clear_sources st) ∧
    (∀ ex st', chunk_step_state st ex = Except.ok st' →
      mixer_invariant st') := by
  refine ⟨fun name rep sidArg hfresh =>
      mixer_invariant_add st name rep sidArg hinv hfresh,
    fun sid st' h => mixer_invariant_remove st st' sid hinv h,
    fun name st' h => ?_, by simp [mixer_invariant, clear_sources, sumCounts],
    fun ex st' h => ?_⟩
  · exact foldlM_except_preserves mixer_invariant _
      (fun s a s' hs hok => mixer_invariant_remove s s' a.1 hs hok) _ st st'
      hinv h
  · exact foldlM_except_preserves mixer_invariant _
      (fun s a s' hs hok => mixer_invariant_remove s s' a.1 hs hok) _ st st'
      hinv h

/-- Witness for C9 (amended) at a one-voice state. -/
theorem mixer_invariant_preserved_witness :
    mixer_invariant
      (add_sample ⟨[(1, "a")], [("a", 1)], [], 1⟩ "b" false none).2 ∧
    mixer_invariant (⟨[], [("a", 0)], [], 1⟩ : MixerState) ∧
    mixer_invariant (clear_sources ⟨[(1, "a")], [("a", 1)], [], 1⟩) :=
  ⟨(mixer_invariant_preserved ⟨[(1, "a")], [("a", 1)], [], 1⟩
      (by decide)).1 "b" false none (by decide),
   (mixer_invariant_preserved ⟨[(1, "a")], [("a", 1)], [], 1⟩
      (by decide)).2.2.2.2 (fun _ => true) ⟨[], [("a", 0)], [], 1⟩
      (by decide),
   (mixer_invariant_preserved ⟨[(1, "a")], [("a", 1)], [], 1⟩
      (by decide)).2.2.2.1⟩

/-! ## Claim C4 — one-shot chunking -/

theorem chunked_flatten (c : Nat) : (data : List Nat) →
    (chunked_data_once (c + 1) data).flatten = data
  | [] => by simp [chunked_data_once]
  | b :: bs => by
    rw [chunked_data_once]
    rw [List.flatten_cons, chunked_flatten c ((b :: bs).drop (c + 1))]
    exact List.take_append_drop _ _
termination_by data => data.length
decreasing_by simp; omega

theorem chunked_ne_nil (c : Nat) (data : List Nat) (h : data ≠ []) :
    chunked_data_once (c + 1) data ≠ [] := by
  match data with
  | [] => exact absurd rfl h
  | b :: bs => rw [chunked_data_once]; simp

theorem chunked_length (c : Nat) : (data : List Nat) → data ≠ [] →
    (chunked_data_once (c + 1) data).length = (data.length + c) / (c + 1)
  | [], h => absurd rfl h
  | b :: bs, _ => by
    rw [chunked_data_once]
    by_cases hshort : (b :: bs).length ≤ c + 1
    · have hn : bs.length + 1 ≤ c + 1 := by simpa using hshort
      have hdrop : (b :: bs).drop (c + 1) = [] := by
        rw [List.drop_eq_nil_iff]
        simp only [List.length_cons]
        omega
      rw [hdrop]
      simp only [chunked_data_once, List.length_cons, List.length_nil]
      refine (Nat.div_eq_of_lt_le ?_ ?_).symm <;> omega
    · have hlong : c + 1 < (b :: bs).length := by omega
      have hdrop : ((b :: bs).drop (c + 1)).length =
          (b :: bs).length - (c + 1) := by simp
      have ihne : (b :: bs).drop (c + 1) ≠ [] := by
        rw [← List.length_pos_iff_ne_nil, hdrop]
        omega
      rw [List.length_cons,
        chunked_length c ((b :: bs).drop (c + 1)) ihne, hdrop]
      have heq : (b :: bs).length + c =
          ((b :: bs).length - (c + 1) + c) + (c + 1) := by omega
      rw [heq, Nat.add_div_right _ (by omega : 0 < c + 1)]
termination_by data => data.length
decreasing_by simp; omega

theorem chunked_last (c : Nat) : (data : List Nat) → data ≠ [] →
    (∀ ch ∈ (chunked_data_once (c + 1) data).dropLast, ch.length = c + 1) ∧
    (∀ l, (chunked_data_once (c + 1) data).getLast? = some l →
      l.length = if data.length % (c + 1) = 0 then c + 1
        else data.length % (c + 1))
  | [], h => absurd rfl h
  | b :: bs, _ => by
    rw [chunked_data_once]
    by_cases hshort : (b :: bs).length ≤ c + 1
    · have hn : bs.length + 1 ≤ c + 1 := by simpa using hshort
      have hdrop : (b :: bs).drop (c + 1) = [] := by
        rw [List.drop_eq_nil_iff]
        simp only [List.length_cons]
        omega
      rw [hdrop]
      simp only [chunked_data_once]
      refine ⟨fun ch hch => absurd hch (by simp), fun l hl => ?_⟩
      simp only [List.getLast?_singleton, Option.some.injEq] at hl
      subst hl
      have hpos : 0 < (b :: bs).length := by simp
      rw [List.length_take]
      rcases Nat.lt_or_ge (b :: bs).length (c + 1) with hlt | hge
      · rw [Nat.mod_eq_of_lt hlt, if_neg (by omega)]
        omega
      · have hqe : (b :: bs).length = c + 1 := le_antisymm hshort hge
        rw [hqe]
        simp
    · have hlong : c + 1 < (b :: bs).length := by omega
      have ihne : (b :: bs).drop (c + 1) ≠ [] := by
        rw [← List.length_pos_iff_ne_nil, List.length_drop]
        omega
      have ih := chunked_last c ((b :: bs).drop (c + 1)) ihne
      have hne := chunked_ne_nil c ((b :: bs).drop (c + 1)) ihne
      obtain ⟨x, xs, hxx⟩ : ∃ x xs,
          chunked_data_once (c + 1) ((b :: bs).drop (c + 1)) = x :: xs := by
        cases hh : chunked_data_once (c + 1) ((b :: bs).drop (c + 1)) with
        | nil => exact absurd hh hne
        | cons x xs => exact ⟨x, xs, rfl⟩
      have hmod : (b :: bs).length % (c + 1) =
          ((b :: bs).drop (c + 1)).length % (c + 1) := by
        rw [List.length_drop]
        conv_lhs =>
          rw [show (b :: bs).length =
            ((b :: bs).length - (c + 1)) + (c + 1) by omega]
        rw [Nat.add_mod_right]
      rw [hxx]
      constructor
      · intro ch hch
        rw [List.dropLast_cons₂] at hch
        rcases List.mem_cons.mp hch with hch | hch
        · subst hch
          rw [List.length_take]
          omega
        · exact ih.1 ch (by rw [hxx]; exact hch)
      · intro l hl
        rw [List.getLast?_cons_cons] at hl
        rw [hmod]
        exact ih.2 l (by rw [hxx]; exact hl)
termination_by data => data.length
decreasing_by simp; omega

/-- C4: for a non-empty PCM buffer and chunk size `C > 0`,
`chunked_data(C, repeat=False)` (always-false stop) yields exactly
`ceil(n / C)` chunks whose concatenation is the original buffer; every chunk
but the last has length `C`, and the last has length `C` when `C ∣ n` and
otherwise length `n % C` with `0 < n % C < C`. -/
theorem chunked_data_once_spec (C : Nat) (data : List Nat)
    (hC : 0 < C) (hdata : data ≠ []) :
    (chunked_data_once C data).flatten = data ∧
    (chunked_data_once C data).length = (data.length + C - 1) / C ∧
    (∀ ch ∈ (chunked_data_once C data).dropLast, ch.length = C) ∧
    (∀ l, (chunked_data_once C data).getLast? = some l →
      l.length = if data.length % C = 0 then C else data.length % C) ∧
    (data.length % C ≠ 0 → 0 < data.length % C ∧ data.length % C < C) := by
  obtain ⟨c, rfl⟩ : ∃ c, C = c + 1 := ⟨C - 1, by omega⟩
  refine ⟨chunked_flatten c data, ?_, (chunked_last c data hdata).1,
    (chunked_last c data hdata).2,
    fun h => ⟨Nat.pos_of_ne_zero h, Nat.mod_lt _ (by omega)⟩⟩
  have harith : data.length + (c + 1) - 1 = data.length + c := by omega
  rw [chunked_length c data hdata, harith]

/-- Witness for C4 on a 10-byte buffer with chunk size 4:
three chunks `[4, 4, 2]` re-concatenate to the buffer. -/
theorem chunked_data_once_spec_witness :
    (chunked_data_once 4 [0, 1, 2, 3, 4, 5, 6, 7, 8, 9]).flatten =
      [0, 1, 2, 3, 4, 5, 6, 7, 8, 9] ∧
    (chunked_data_once 4 [0, 1, 2, 3, 4, 5, 6, 7, 8, 9]).length = 3 :=
  ⟨(chunked_data_once_spec 4 [0, 1, 2, 3, 4, 5, 6, 7, 8, 9] (by decide)
      (by decide)).1,
   (chunked_data_once_spec 4 [0, 1, 2, 3, 4, 5, 6, 7, 8, 9] (by decide)
      (by decide)).2.1⟩

/-! ## Claim C5 — repeating chunking -/

theorem repeat_cursor_closed (C L : Nat) : ∀ k,
    repeat_cursor C L k = (k * C) % L
  | 0 => by simp [repeat_cursor]
  | k + 1 => by
    rw [repeat_cursor, repeat_cursor_closed C L k, Nat.mod_add_mod]
    ring_nf

theorem flatten_replicate_length (m : Nat) (data : List Nat) :
    (List.replicate m data).flatten.length = m * data.length := by
  rw [List.length_flatten, List.map_replicate, List.sum_replicate]
  simp

theorem flatten_replicate_getD (data : List Nat) (hd : data ≠ []) :
    ∀ (m j : Nat), j < m * data.length →
    (List.replicate m data).flatten.getD j 0 = data.getD (j % data.length) 0 := by
  intro m
  induction m with
  | zero => intro j hj; omega
  | succ m ih =>
    intro j hj
    rw [List.replicate_succ, List.flatten_cons]
    rcases Nat.lt_or_ge j data.length with hlt | hge
    · rw [List.getD_eq_getElem?_getD, List.getElem?_append, if_pos hlt,
        ← List.getD_eq_getElem?_getD, Nat.mod_eq_of_lt hlt]
    · have hlen : 0 < data.length := List.length_pos_of_ne_nil hd
      have hstep : (m + 1) * data.length = m * data.length + data.length := by
        ring
      rw [List.getD_eq_getElem?_getD, List.getElem?_append,
        if_neg (by omega), ← List.getD_eq_getElem?_getD,
        ih (j - data.length) (by omega)]
      congr 1
      conv_rhs => rw [show j = (j - data.length) + data.length by omega]
      rw [Nat.add_mod_right]

theorem repeat_bdata_length (C : Nat) (data : List Nat) (hC : 0 < C)
    (hd : data ≠ []) :
    data.length ∣ (repeat_bdata C data).length ∧
    C ≤ (repeat_bdata C data).length ∧
    0 < (repeat_bdata C data).length := by
  have hlen : 0 < data.length := List.length_pos_of_ne_nil hd
  unfold repeat_bdata
  split
  · rw [flatten_replicate_length]
    refine ⟨dvd_mul_left data.length _, ?_, ?_⟩
    · have h1 := Nat.div_add_mod (C + data.length - 1) data.length
      have h2 := Nat.mod_lt (C + data.length - 1) hlen
      have h3 : data.length * ((C + data.length - 1) / data.length) =
          (C + data.length - 1) / data.length * data.length :=
        Nat.mul_comm _ _
      omega
    · have h1 : 1 ≤ (C + data.length - 1) / data.length := by
        rw [Nat.one_le_div_iff hlen]
        omega
      have := Nat.mul_le_mul_right data.length h1
      omega
  · exact ⟨dvd_refl _, by omega, hlen⟩

theorem repeat_bdata_getD (C : Nat) (data : List Nat) (hd : data ≠ []) :
    ∀ j, j < (repeat_bdata C data).length →
    (repeat_bdata C data).getD j 0 = data.getD (j % data.length) 0 := by
  intro j hj
  unfold repeat_bdata at hj ⊢
  split at hj
  · rw [flatten_replicate_length] at hj
    simp only [if_pos ‹data.length < C›]
    exact flatten_replicate_getD data hd _ j hj
  · simp only [if_neg ‹¬ data.length < C›]
    rw [Nat.mod_eq_of_lt hj]

theorem ext_buffer_getD (C : Nat) (data bdata : List Nat)
    (hdvd : data.length ∣ bdata.length) (hCle : C ≤ bdata.length)
    (_hlen : 0 < data.length)
    (hper : ∀ j, j < bdata.length →
      bdata.getD j 0 = data.getD (j % data.length) 0) :
    ∀ j, j < bdata.length + C →
    (bdata ++ bdata.take C).getD j 0 = data.getD (j % data.length) 0 := by
  intro j hj
  rcases Nat.lt_or_ge j bdata.length with hlt | hge
  · rw [List.getD_eq_getElem?_getD, List.getElem?_append, if_pos hlt,
      ← List.getD_eq_getElem?_getD]
    exact hper j hlt
  · rw [List.getD_eq_getElem?_getD, List.getElem?_append, if_neg (by omega),
      List.getElem?_take, if_pos (by omega), ← List.getD_eq_getElem?_getD]
    rw [hper (j - bdata.length) (by omega)]
    congr 1
    have hmod0 : bdata.length % data.length = 0 :=
      Nat.dvd_iff_mod_eq_zero.mp hdvd
    conv_rhs => rw [show j = (j - bdata.length) + bdata.length by omega]
    rw [Nat.add_mod, hmod0, Nat.add_zero, Nat.mod_mod_of_dvd _ (dvd_refl _)]

/-- C5: for a non-empty PCM buffer and chunk size `C > 0`,
`chunked_data(C, repeat=True)` (always-false stop) yields an unbounded
sequence in which every chunk has length exactly `C`, and for every `K` the
concatenated stream of yielded bytes agrees with the infinite tiling of the
buffer on its first `K * len(buffer)` bytes. -/
theorem repeat_chunks_spec (C : Nat) (data : List Nat) (hC : 0 < C)
    (hdata : data ≠ []) :
    (∀ k, (repeat_chunk C data k).length = C) ∧
    (∀ K j, j < K * data.length →
      repeat_stream_byte C data j = data.getD (j % data.length) 0) := by
  obtain ⟨hdvd, hCle, hpos⟩ := repeat_bdata_length C data hC hdata
  have hcur : ∀ k, repeat_cursor C (repeat_bdata C data).length k <
      (repeat_bdata C data).length := fun k => by
    rw [repeat_cursor_closed]
    exact Nat.mod_lt _ hpos
  have hextlen : (repeat_bdata C data ++
      (repeat_bdata C data).take C).length =
      (repeat_bdata C data).length + C := by
    rw [List.length_append, List.length_take]
    omega
  have hchunklen : ∀ k, (repeat_chunk C data k).length = C := fun k => by
    unfold repeat_chunk
    rw [List.length_take, List.length_drop, hextlen]
    have := hcur k
    omega
  refine ⟨hchunklen, fun K j _ => ?_⟩
  unfold repeat_stream_byte repeat_chunk
  have hicur := hcur (j / C)
  have hjC : j % C < C := Nat.mod_lt _ hC
  have hlen : 0 < data.length := List.length_pos_of_ne_nil hdata
  rw [List.getD_eq_getElem?_getD, List.getElem?_take, if_pos hjC,
    List.getElem?_drop, ← List.getD_eq_getElem?_getD]
  rw [ext_buffer_getD C data (repeat_bdata C data) hdvd hCle hlen
    (repeat_bdata_getD C data hdata) _ (by omega)]
  congr 1
  rw [repeat_cursor_closed, Nat.add_mod, Nat.mod_mod_of_dvd _ hdvd,
    ← Nat.add_mod, Nat.mul_comm (j / C) C, Nat.div_add_mod]

/-- Witness for C5 on the buffer `[1, 2]` with chunk size 3: every chunk has
length 3 and byte 4 of the stream equals byte `4 % 2` of the buffer. -/
theorem repeat_chunks_spec_witness :
    (repeat_chunk 3 [1, 2] 1).length = 3 ∧
    repeat_stream_byte 3 [1, 2] 4 = ([1, 2] : List Nat).getD (4 % 2) 0 :=
  ⟨(repeat_chunks_spec 3 [1, 2] (by decide) (by decide)).1 1,
   (repeat_chunks_spec 3 [1, 2] (by decide) (by decide)).2 3 4 (by decide)⟩

/-! ## Claim C1 — every produced mixer chunk has length exactly `chunksize` -/

theorem natToLE_length : ∀ (w n : Nat), (natToLE w n).length = w
  | 0, _ => rfl
  | w + 1, n => by rw [natToLE, List.length_cons, natToLE_length w]

theorem encodeSigned_length (w : Nat) : ∀ (xs : List Int),
    (encodeSigned w xs).length = w * xs.length
  | [] => by simp [encodeSigned]
  | x :: xs => by
    have ih := encodeSigned_length w xs
    simp only [encodeSigned, List.map_cons, List.flatten_cons,
      List.length_append, List.length_cons, natToLE_length] at ih ⊢
    rw [ih]
    ring

theorem decodeSignedPos_length (w : Nat) : ∀ (bs : List Nat),
    (decodeSignedPos w bs).length = (bs.length + w) / (w + 1)
  | [] => by
    simp only [decodeSignedPos, List.length_nil, Nat.zero_add]
    rw [Nat.div_eq_of_lt (by omega)]
  | b :: bs => by
    rw [decodeSignedPos, List.length_cons,
      decodeSignedPos_length w (bs.drop w), List.length_drop]
    simp only [List.length_cons]
    rcases Nat.lt_or_ge bs.length w with hlt | hge
    · rw [show bs.length - w = 0 by omega, Nat.zero_add,
        Nat.div_eq_of_lt (by omega),
        (Nat.div_eq_of_lt_le (by omega) (by omega) :
          (bs.length + 1 + w) / (w + 1) = 1)]
    · rw [show bs.length + 1 + w = (bs.length - w + w) + (w + 1) by omega,
        Nat.add_div_right _ (by omega)]
termination_by bs => bs.length
decreasing_by simp; omega

theorem audioop_add_length (w : Nat) (a b out : List Nat)
    (h : audioop_add w a b = Except.ok out) : out.length = a.length := by
  unfold audioop_add at h
  split at h
  · exact absurd h (by simp)
  · split at h
    · exact absurd h (by simp)
    · split at h
      · exact absurd h (by simp)
      · rename_i hlen hw hmod
        have hlen' : a.length = b.length := by omega
        have hw' : w = 1 ∨ w = 2 ∨ w = 3 ∨ w = 4 := by
          by_contra hc
          exact hw hc
        have hmod' : a.length % w = 0 := by omega
        obtain ⟨w', rfl⟩ : ∃ w', w = w' + 1 := ⟨w - 1, by omega⟩
        have hout : out = encodeSigned (w' + 1)
            (List.zipWith (satAdd (w' + 1)) (decodeSigned (w' + 1) a)
              (decodeSigned (w' + 1) b)) := by
          cases h
          rfl
        obtain ⟨q, hq⟩ := Nat.dvd_of_mod_eq_zero hmod'
        have hdl : ∀ l : List Nat, l.length = (w' + 1) * q →
            (decodeSigned (w' + 1) l).length = q := fun l hl => by
          show (decodeSignedPos w' l).length = q
          rw [decodeSignedPos_length, hl,
            show (w' + 1) * q + w' = w' + (w' + 1) * q by ring,
            Nat.add_mul_div_left _ _ (by omega : 0 < w' + 1),
            Nat.div_eq_of_lt (by omega), Nat.zero_add]
        rw [hout, encodeSigned_length, List.length_zipWith, hdl a hq,
          hdl b (by rw [← hlen']; exact hq), Nat.min_self, ← hq]

theorem gatherChunks_length (C : Nat) :
    ∀ (pulls : List (Option (List Nat))) (cs : List (List Nat)),
    gatherChunks C pulls = Except.ok cs → ∀ c ∈ cs, c.length = C := by
  intro pulls
  induction pulls with
  | nil =>
    intro cs h c hc
    simp only [gatherChunks] at h
    cases h
    exact absurd hc (by simp)
  | cons p rest ih =>
    intro cs h c hc
    match p with
    | none => exact ih cs (by simpa [gatherChunks] using h) c hc
    | some chunk =>
      rw [gatherChunks] at h
      split at h
      · exact absurd h (by simp)
      · rename_i hle
        cases hrec : gatherChunks C rest with
        | error e => rw [hrec] at h; exact absurd h (by simp [Except.map])
        | ok cs' =>
          rw [hrec] at h
          simp only [Except.map, Except.ok.injEq] at h
          subst h
          rcases List.mem_cons.mp hc with hc | hc
          · subst hc
            split
            · rw [List.length_append, List.length_replicate]
              omega
            · omega
          · exact ih cs' hrec c hc

/-- C1: in every mixer state (any multiset of voice pulls, including none),
a successfully produced value of the mixer's chunk stream has length exactly
`chunksize`; with no contributing voices the chunk is `chunksize` zero
bytes, and a single voice chunk shorter than `chunksize` is right-padded
with zero bytes to exactly `chunksize`. -/
theorem next_chunk_spec (w C : Nat) :
    (∀ pulls out, next_chunk w C pulls = Except.ok out → out.length = C) ∧
    next_chunk w C [] = Except.ok (List.replicate C 0) ∧
    (∀ chunk : List Nat, chunk.length ≤ C →
      next_chunk w C [some chunk] =
        Except.ok (chunk ++ List.replicate (C - chunk.length) 0)) := by
  refine ⟨fun pulls out h => ?_, by rfl, fun chunk hle => ?_⟩
  · unfold next_chunk at h
    cases hg : gatherChunks C pulls with
    | error e => rw [hg] at h; exact absurd h (by simp)
    | ok cs =>
      rw [hg] at h
      have hall := gatherChunks_length C pulls cs hg
      cases cs with
      | nil =>
        simp only [List.isEmpty_nil, if_true, List.foldlM_nil] at h
        have hout : List.replicate C 0 = out := by
          simpa [pure, Except.pure] using h
        rw [← hout, List.length_replicate]
      | cons c0 cs' =>
        simp only [List.isEmpty_cons, if_false, Bool.false_eq_true] at h
        have hbase : c0.length = C := hall c0 (by simp)
        exact foldlM_except_preserves (fun l => l.length = C)
          (fun acc c => audioop_add w acc c)
          (fun s a s' hs hok => by
            show s'.length = C
            rw [audioop_add_length w s a s' hok]
            exact hs)
          cs' c0 out hbase h
  · unfold next_chunk
    rw [gatherChunks, if_neg (by omega : ¬ C < chunk.length)]
    rcases Nat.lt_or_ge chunk.length C with hlt | hge
    · rw [if_pos hlt]
      rfl
    · rw [if_neg (by omega : ¬ chunk.length < C),
        show C - chunk.length = 0 by omega, List.replicate_zero,
        List.append_nil]
      rfl

/-- Witness for C1: a lone two-byte voice chunk is padded to the chunk size
4, and with no active voices four zero bytes are produced. -/
theorem next_chunk_spec_witness :
    ([3, 7, 0, 0] : List Nat).length = 4 ∧
    next_chunk 2 4 [] = Except.ok (List.replicate 4 0) ∧
    next_chunk 2 4 [some [3, 7]] =
      Except.ok ([3, 7] ++ List.replicate 2 0) :=
  ⟨(next_chunk_spec 2 4).1 [some [3, 7]] [3, 7, 0, 0] (by rfl),
   (next_chunk_spec 2 4).2.1,
   (next_chunk_spec 2 4).2.2 [3, 7] (by decide)⟩

/-! ## Claim C3 — saturating addition semantics -/

theorem leToNat_natToLE : ∀ (w n : Nat), leToNat (natToLE w n) = n % 256 ^ w
  | 0, n => by simp [natToLE, leToNat, Nat.mod_one]
  | w + 1, n => by
    rw [natToLE, leToNat, leToNat_natToLE w (n / 256),
      Nat.mod_mod_of_dvd _ (dvd_refl 256),
      show (256 : Nat) ^ (w + 1) = 256 * 256 ^ w by ring, Nat.mod_mul]

theorem toSigned_encode_sample (w : Nat) (hw : 0 < w) (x : Int)
    (hlo : -(2 ^ (8 * w - 1)) ≤ x) (hhi : x < 2 ^ (8 * w - 1)) :
    toSigned w
      (leToNat (natToLE w ((x % ((2 : Int) ^ (8 * w))).toNat))) = x := by
  have hBpow : (256 : Nat) ^ w = 2 ^ (8 * w) := by rw [pow_mul]; norm_num
  have hsplit : (2 : Int) ^ (8 * w) = 2 ^ (8 * w - 1) + 2 ^ (8 * w - 1) := by
    conv_lhs => rw [show 8 * w = (8 * w - 1) + 1 by omega]
    rw [pow_succ]
    ring
  have hppos : (0 : Int) < 2 ^ (8 * w - 1) := by positivity
  have hBpos : (0 : Int) < 2 ^ (8 * w) := by positivity
  have hmge : 0 ≤ x % (2 : Int) ^ (8 * w) := Int.emod_nonneg x hBpos.ne'
  have hmlt : x % (2 : Int) ^ (8 * w) < 2 ^ (8 * w) :=
    Int.emod_lt_of_pos x hBpos
  have hcast : (((2 : Nat) ^ (8 * w) : Nat) : Int) = (2 : Int) ^ (8 * w) := by
    push_cast
    rfl
  have hcast1 : (((2 : Nat) ^ (8 * w - 1) : Nat) : Int) =
      (2 : Int) ^ (8 * w - 1) := by
    push_cast
    rfl
  have hmint : (((x % (2 : Int) ^ (8 * w)).toNat : Nat) : Int) =
      x % (2 : Int) ^ (8 * w) := Int.toNat_of_nonneg hmge
  have hxeq : x % (2 : Int) ^ (8 * w) = x ∨
      x % (2 : Int) ^ (8 * w) = x + 2 ^ (8 * w) := by
    rcases le_or_lt 0 x with hx0 | hx0
    · exact Or.inl (Int.emod_eq_of_lt hx0 (by omega))
    · refine Or.inr ?_
      rw [← Int.add_emod_self]
      exact Int.emod_eq_of_lt (by omega) (by omega)
  unfold toSigned
  rw [leToNat_natToLE, hBpow, Nat.mod_eq_of_lt (by omega)]
  split
  · rename_i hcond
    rcases hxeq with h | h <;> omega
  · rename_i hcond
    rcases hxeq with h | h <;> omega

theorem decodeSigned_append (w : Nat) (g rest : List Nat)
    (hg : g.length = w) (hw : 0 < w) :
    decodeSigned w (g ++ rest) =
      toSigned w (leToNat g) :: decodeSigned w rest := by
  obtain ⟨w', rfl⟩ : ∃ w', w = w' + 1 := ⟨w - 1, by omega⟩
  match g, hg with
  | b :: bs', hg =>
    have hlen : bs'.length = w' := by simpa using hg
    show decodeSignedPos w' ((b :: bs') ++ rest) =
      toSigned (w' + 1) (leToNat (b :: bs')) :: decodeSignedPos w' rest
    rw [List.cons_append, decodeSignedPos, List.take_left' hlen,
      List.drop_left' hlen]

theorem decodeSigned_encodeSigned (w : Nat) (hw : 0 < w) :
    ∀ (xs : List Int),
    (∀ x ∈ xs, -(2 ^ (8 * w - 1)) ≤ x ∧ x < 2 ^ (8 * w - 1)) →
    decodeSigned w (encodeSigned w xs) = xs := by
  intro xs
  induction xs with
  | nil =>
    intro _
    obtain ⟨w', rfl⟩ : ∃ w', w = w' + 1 := ⟨w - 1, by omega⟩
    simp [decodeSigned, encodeSigned, decodeSignedPos]
  | cons x xs ih =>
    intro hall
    have hx := hall x (by simp)
    have henc : encodeSigned w (x :: xs) =
        natToLE w ((x % ((2 : Int) ^ (8 * w))).toNat) ++
          encodeSigned w xs := by
      simp [encodeSigned]
    rw [henc, decodeSigned_append w _ _ (natToLE_length w _) hw,
      toSigned_encode_sample w hw x hx.1 hx.2,
      ih (fun y hy => hall y (by simp [hy]))]

theorem satAdd_bounds (w : Nat) (x y : Int) :
    -(2 ^ (8 * w - 1)) ≤ satAdd w x y ∧ satAdd w x y < 2 ^ (8 * w - 1) := by
  have hppos : (0 : Int) < 2 ^ (8 * w - 1) := by positivity
  simp only [satAdd]
  split
  · omega
  · split <;> omega

theorem zipWith_satAdd_bounds (w : Nat) : ∀ (l1 l2 : List Int) (z : Int),
    z ∈ List.zipWith (satAdd w) l1 l2 →
    -(2 ^ (8 * w - 1)) ≤ z ∧ z < 2 ^ (8 * w - 1)
  | [], _, z, h => by simp at h
  | _ :: _, [], z, h => by simp at h
  | x :: l1, y :: l2, z, h => by
    rw [List.zipWith_cons_cons] at h
    rcases List.mem_cons.mp h with rfl | h
    · exact satAdd_bounds w x y
    · exact zipWith_satAdd_bounds w l1 l2 z h

theorem audioop_add_decode (w : Nat) (a b out : List Nat)
    (h : audioop_add w a b = Except.ok out) :
    decodeSigned w out =
      List.zipWith (satAdd w) (decodeSigned w a) (decodeSigned w b) ∧
    (∀ x ∈ decodeSigned w out,
      -(2 ^ (8 * w - 1)) ≤ x ∧ x ≤ 2 ^ (8 * w - 1) - 1) := by
  unfold audioop_add at h
  split at h
  · exact absurd h (by simp)
  · split at h
    · exact absurd h (by simp)
    · split at h
      · exact absurd h (by simp)
      · rename_i hlen hw hmod
        have hw1 : 0 < w := by
          rcases not_not.mp (by exact fun hc => hw hc) with h1 | h2 | h3 | h4
            <;> omega
        have hout : out = encodeSigned w
            (List.zipWith (satAdd w) (decodeSigned w a)
              (decodeSigned w b)) := by
          cases h
          rfl
        have hdec : decodeSigned w out =
            List.zipWith (satAdd w) (decodeSigned w a) (decodeSigned w b) := by
          rw [hout]
          exact decodeSigned_encodeSigned w hw1 _
            (fun z hz => zipWith_satAdd_bounds w _ _ z hz)
        refine ⟨hdec, fun x hx => ?_⟩
        rw [hdec] at hx
        have hb := zipWith_satAdd_bounds w _ _ x hx
        exact ⟨hb.1, by omega⟩

/-- C3: one mixing step `audioop.add(mixed, to_mix, norm_nchannels)` treats
both buffers as interleaved signed little-endian integers of
`norm_samplewidth` bytes (the two constants are both 2), adds them
element-wise with clamping, and every sample of the output lies in
`[-2^(8w-1), 2^(8w-1) - 1]` for `w = norm_samplewidth`. -/
theorem mixer_add_saturates (a b out : List Nat)
    (h : mixer_add_step a b = Except.ok out) :
    decodeSigned norm_samplewidth out =
      List.zipWith (satAdd norm_samplewidth) (decodeSigned norm_samplewidth a)
        (decodeSigned norm_samplewidth b) ∧
    (∀ x ∈ decodeSigned norm_samplewidth out,
      -(2 ^ (8 * norm_samplewidth - 1)) ≤ x ∧
        x ≤ 2 ^ (8 * norm_samplewidth - 1) - 1) :=
  audioop_add_decode norm_samplewidth a b out h

/-- Witness for C3: adding the 16-bit sample 30000 to itself saturates to
32767, which lies in the signed 16-bit range. -/
theorem mixer_add_saturates_witness :
    decodeSigned norm_samplewidth [255, 127] =
      List.zipWith (satAdd norm_samplewidth)
        (decodeSigned norm_samplewidth [48, 117])
        (decodeSigned norm_samplewidth [48, 117]) ∧
    (∀ x ∈ decodeSigned norm_samplewidth [255, 127],
      -(2 ^ (8 * norm_samplewidth - 1)) ≤ x ∧
        x ≤ 2 ^ (8 * norm_samplewidth - 1) - 1) :=
  mixer_add_saturates [48, 117] [48, 117] [255, 127] (by
    simp [mixer_add_step, audioop_add, decodeSigned, decodeSignedPos,
      leToNat, toSigned, satAdd, encodeSigned, natToLE, norm_nchannels])

end BoulderCaves
